import Mathlib

/-!
# Verification of the wikiplum static site generator and frontmatter API

Shallow embedding of the three Go source files of `starillume/wikiplum`:

* `src/unnamed/part_000` — the site builder (`main.go`): walks `content/`,
  renders every markdown file to HTML under `build/`, generating a
  per-page navigation sidebar;
* `src/unnamed/part_001` — the local-read frontmatter API worker;
* `src/functions/api.go` — the remote-fetch frontmatter API worker.

Byte/string content is modelled as `List Char` (`Str`), with the Go
`strings` package operations redefined faithfully below. Filesystem paths
handled by `path/filepath` are modelled as lists of separator-free
segments (`Path`); the string-level Go operations applied to such paths
(`strings.HasSuffix(path, ".md")`, `strings.Contains(path, "index")`,
`strings.TrimSuffix(path, ".md")`, `path + ".html"`) are modelled at the
segment level, which is faithful because none of the literals `".md"`,
`".html"`, `"index"` contains the path separator `/`, so a match in the
joined string never spans a segment boundary and suffix operations only
touch the final segment.

External capabilities are abstracted exactly where the Go code delegates:
YAML parsing (`gopkg.in/yaml.v3`) is a parameter `yamlU : Str → Option Fm`
(returning `none` both when `Unmarshal` errors and when it leaves the map
`nil`), markdown conversion (`goldmark.Convert`) a parameter
`convert : Str → Except Str Str`, the network of the remote worker an
oracle `net : Str → FetchOutcome` indexed by the request URL, and the
local filesystem of the API worker a function `Str → Except ReadErr Str`.
`http.Error` and `json.Encoder.Encode` both terminate the body with a
newline on the wire; responses are modelled at the message level, uniformly
without that trailing newline.
-/

namespace Wikiplum

/-- Character-list model of a Go string / byte slice. -/
abbrev Str := List Char

/-- Embed a Lean string literal into the model. -/
def str (s : String) : Str := s.toList

/-! ## The Go `strings` package -/

/-- Go `strings.HasPrefix(s, p)` (generic so it also serves segment
    paths). The recursion discriminates on the pattern first. -/
def hasPrefix {α : Type} [DecidableEq α] (s p : List α) : Bool :=
  match p, s with
  | [], _ => true
  | _ :: _, [] => false
  | q :: qs, c :: cs => if c = q then hasPrefix cs qs else false
termination_by structural p

/-- Go `strings.HasSuffix(s, suf)`. -/
def hasSuffix (s suf : Str) : Bool := hasPrefix s.reverse suf.reverse

/-- Go `strings.TrimPrefix(s, pre)`. -/
def trimPrefix (s pre : Str) : Str :=
  if hasPrefix s pre then s.drop pre.length else s

/-- Go `strings.TrimSuffix(s, suf)`. -/
def trimSuffix (s suf : Str) : Str :=
  if hasSuffix s suf then (s.reverse.drop suf.length).reverse else s

/-- Go `unicode.IsSpace` restricted to the Latin-1 range, which is all the
    frontmatter delimiters and tests exercise. -/
def isSpaceGo (c : Char) : Bool :=
  c = ' ' || c = '\t' || c = '\n' || c = '\x0b' || c = '\x0c' || c = '\r'
    || c = '\x85' || c = '\xa0'

/-- Go `strings.TrimSpace(s)`: drop leading and trailing whitespace. -/
def trimSpace (s : Str) : Str :=
  ((s.dropWhile isSpaceGo).reverse.dropWhile isSpaceGo).reverse

/-- Go `strings.Contains(s, sub)`. -/
def contains : Str → Str → Bool
  | [], sub => hasPrefix ([] : Str) sub
  | c :: t, sub => hasPrefix (c :: t) sub || contains t sub

/-- Go `strings.ReplaceAll(s, ".md", ".html")`, the one replacement the
    repository performs (line 104 of `part_000`): scan left to right,
    rewrite every non-overlapping occurrence of `".md"` to `".html"`,
    copy every other byte unchanged. -/
def replaceMdHtml : Str → Str
  | '.' :: 'm' :: 'd' :: t => str ".html" ++ replaceMdHtml t
  | c :: t => c :: replaceMdHtml t
  | [] => []

/-- The split before the first occurrence of `sep` (Go `strings.Index`):
    `some (before, after)` when `sep` occurs, `none` otherwise. -/
def splitOnce (sep : Str) : Str → Option (Str × Str)
  | [] => if hasPrefix ([] : Str) sep then some ([], []) else none
  | c :: t =>
    if hasPrefix (c :: t) sep then some ([], (c :: t).drop sep.length)
    else (splitOnce sep t).map fun p => (c :: p.1, p.2)

/-- Go `strings.SplitN(s, sep, n)` for `n ≥ 0` and nonempty `sep` (the one
    call site uses `sep = "---"`, `n = 3`). -/
def splitN (sep : Str) : Str → Nat → List Str
  | _, 0 => []
  | s, 1 => [s]
  | s, n + 2 =>
    match splitOnce sep s with
    | none => [s]
    | some (a, b) => a :: splitN sep b (n + 1)

/-! ## Paths and the site builder (`src/unnamed/part_000`) -/

/-- One path segment (a file or directory name, free of the separator). -/
abbrev Seg := Str

/-- A clean relative filesystem path, as the list of its segments. The Go
    string `"."` (the current directory, as returned by `filepath.Rel` for
    equal arguments and `filepath.Dir` of a bare name) is the empty list. -/
abbrev Path := List Seg

/-- The constant `ContentPath = "content"` of `part_000`. -/
def ContentPath : Path := [str "content"]

/-- The constant `BuildPath = "build"` of `part_000`. -/
def BuildPath : Path := [str "build"]

/-- The constant `RootPage = "index"` of `part_000`. -/
def RootPage : Str := str "index"

/-- One entry handed to a `filepath.WalkDir` callback: the walked path and
    whether it is a directory. Walks under a root `r` yield pairwise
    distinct paths, every one of which has `r` as a prefix. -/
structure Entry where
  path : Path
  isDir : Bool
deriving DecidableEq

/-- Go `filepath.Rel(base, targ)` on clean relative paths: strip the common
    prefix, then climb with one `".."` per remaining base segment. -/
def relPath : Path → Path → Path
  | [], ts => ts
  | b :: bs, t :: ts =>
    if b = t then relPath bs ts
    else List.replicate (b :: bs).length (str "..") ++ t :: ts
  | b :: bs, [] => List.replicate (b :: bs).length (str "..")

/-- Go `filepath.Dir` on a clean relative path: drop the final segment. -/
def dirPath (p : Path) : Path := p.dropLast

/-- Go `filepath.Base` on a clean relative path in which only the final
    segment may be empty (a trailing separator): the last nonempty
    segment, or `"."` for the empty path. -/
def baseSeg (p : Path) : Seg :=
  match p.getLast? with
  | none => str "."
  | some s =>
    if s = [] then
      match p.dropLast.getLast? with
      | none => str "."
      | some s2 => s2
    else s

/-- Apply `f` to the final segment of a path. String-level suffix surgery
    (`strings.TrimSuffix(path, ".md")`, `path + ".html"`) only ever touches
    the final segment, since neither literal contains the separator. -/
def mapLastSeg (f : Seg → Seg) : Path → Path
  | [] => []
  | [s] => [f s]
  | s :: s2 :: rest => s :: mapLastSeg f (s2 :: rest)

/-- The guard `strings.HasSuffix(path, ".md")` of the walk callbacks,
    at segment level (`".md"` cannot span a separator). -/
def isMdFile (p : Path) : Bool :=
  match p.getLast? with
  | some s => hasSuffix s (str ".md")
  | none => false

/-- The guard `strings.Contains(path, RootPage)` of `generateSidebar`,
    at segment level: `"index"` contains no separator, so a substring
    match in the joined path string is a match inside one segment. -/
def containsRootPage (p : Path) : Bool :=
  p.any fun seg => contains seg RootPage

/-- Lines 97–101 of `part_000`: `outputPath(mdPath)` takes the path
    relative to `ContentPath`, trims the `.md` suffix, appends `".html"`
    and joins under `BuildPath`. Call sites pass only `.md` files strictly
    below the content root, so the relative path is never `"."`. -/
def outputPath (mdPath : Path) : Path :=
  BuildPath ++ mapLastSeg (fun s => trimSuffix s (str ".md") ++ str ".html") (relPath ContentPath mdPath)

/-- The walk body of `buildPages` (lines 65–95 of `part_000`), projected to
    the output paths it writes on a successful build: directories and
    non-`.md` files are passed over, every other file is rendered and
    written to `outputPath path`. -/
def buildOutputPaths (entries : List Entry) : List Path :=
  entries.filterMap fun e =>
    if e.isDir || !isMdFile e.path then none else some (outputPath e.path)

/-- Lines 103–105 of `part_000`: `mdLinkToHTML` replaces every occurrence
    of `".md"` in the content by `".html"`. -/
def mdLinkToHTML (md : Str) : Str := replaceMdHtml md

/-- Lines 107–118 of `part_000`, with `goldmark.Convert` abstract: rewrite
    the links, then convert, propagating conversion failure. -/
def renderMarkdown (convert : Str → Except Str Str) (md : Str) : Except Str Str :=
  convert (mdLinkToHTML md)

/-- A sidebar navigation entry of `part_000`. -/
structure NavItem where
  Title : Seg
  Link : Path
deriving DecidableEq

/-- The skip guard of the `generateSidebar` walk callback (line 169 of
    `part_000`): directories, paths containing `RootPage`, non-`.md`. -/
def sidebarSkip (e : Entry) : Bool :=
  e.isDir || containsRootPage e.path || !isMdFile e.path

/-- The body of the `generateSidebar` walk callback (lines 173–188 of
    `part_000`) for one retained file: `relRoot` is the current page's
    directory relative to the root, `rel` the candidate relative to the
    root; the link is `rel` when `relRoot` is `"."` and `filepath.Join`
    otherwise (plain concatenation: the operands are `".."` climbs
    followed by a clean relative path, which `Clean` leaves unchanged);
    trim `".md"`, title is `filepath.Base`, link gets `".html"`. -/
def sidebarItem (root cur : Path) (p : Path) : NavItem :=
  let relRoot := relPath (dirPath cur) root
  let rel := relPath root p
  let link := if relRoot = [] then rel else relRoot ++ rel
  let link2 := mapLastSeg (fun s => trimSuffix s (str ".md")) link
  { Title := baseSeg link2, Link := mapLastSeg (fun s => s ++ str ".html") link2 }

/-- The `items` accumulator loop of `generateSidebar`: each retained file
    appends one `NavItem`. -/
def sidebarGo (root cur : Path) : List Entry → List NavItem → List NavItem
  | [], acc => acc
  | e :: rest, acc =>
    if sidebarSkip e then sidebarGo root cur rest acc
    else sidebarGo root cur rest (acc ++ [sidebarItem root cur e.path])

/-- Lines 166–192 of `part_000`: `generateSidebar(root, currentPath)` over
    the walk entries under `root`. -/
def generateSidebar (root cur : Path) (entries : List Entry) : List NavItem :=
  sidebarGo root cur entries []

/-! ## The frontmatter API workers -/

/-- A flat string-to-string frontmatter mapping (`map[string]string`,
    with insertion order fixed by the list). -/
abbrev Fm := List (Str × Str)

/-- An HTTP response, at the message level: the status code, the
    `Content-Type` header and the body (without the trailing newline both
    `http.Error` and `json.Encoder.Encode` add on the wire). -/
structure ApiResponse where
  status : Nat
  contentType : Str
  body : Str
deriving DecidableEq

/-- Go `http.Error(w, msg, code)`: plain-text error response. -/
def httpError (msg : Str) (code : Nat) : ApiResponse :=
  { status := code, contentType := str "text/plain; charset=utf-8", body := msg }

/-- One quoted JSON string (the frontmatter keys and values the repository
    exercises need no escaping). -/
def jsonQuote (s : Str) : Str := '"' :: s ++ ['"']

/-- The comma-separated members of a flat JSON object. -/
def jsonMembers : Fm → Str
  | [] => []
  | [(k, v)] => jsonQuote k ++ ':' :: jsonQuote v
  | (k, v) :: kv :: rest => jsonQuote k ++ ':' :: jsonQuote v ++ ',' :: jsonMembers (kv :: rest)

/-- `encoding/json` serialization of a flat string map: `\x7b...\x7d`. -/
def jsonEncode (fm : Fm) : Str := '\x7b' :: jsonMembers fm ++ ['\x7d']

/-- Split on newline characters (the empty content is one empty line; the
    nil inner match is unreachable, the recursion always yields a
    nonempty list). -/
def splitLines : Str → List Str
  | [] => [[]]
  | c :: t =>
    match splitLines t with
    | [] => [[c]]
    | l :: ls => if c = '\n' then [] :: l :: ls else (c :: l) :: ls

/-- Model of the external YAML capability (`gopkg.in/yaml.v3`) restricted
    to flat string-to-string mappings, the contract the spec fixes: one
    `key: value` pair per nonblank line, values plain scalars. Enough to
    evaluate the concrete documents the claims name. -/
def yamlFlatParse (s : Str) : Option Fm :=
  (((splitLines s).map trimSpace).filter fun l => !l.isEmpty).mapM fun l =>
    match splitOnce (str ":") l with
    | none => none
    | some kv => some (trimSpace kv.1, trimSpace kv.2)

/-- The frontmatter delimiter `"---"`. -/
def fmDelim : Str := str "---"

namespace LocalApi

/-- The possible failures of `os.ReadFile`: the file is missing, or the
    read fails for another reason (permissions, I/O). `part_001` never
    inspects which. -/
inductive ReadErr where
  | notFound
  | other
deriving DecidableEq

/-- Lines 37–56 of `part_001`: `parseFrontmatter(md)`. Trim the content;
    no leading `"---"`, fewer than three `SplitN` segments, or a failed
    `yaml.Unmarshal` of the trimmed middle segment all yield `nil`
    (`none`), never an error; otherwise the parsed mapping. -/
def parseFrontmatter (yamlU : Str → Option Fm) (md : Str) : Option Fm :=
  let content := trimSpace md
  if !hasPrefix content fmDelim then none
  else
    let parts := splitN fmDelim content 3
    if parts.length < 3 then none
    else
      let yamlPart := trimSpace (parts.getD 1 [])
      match yamlU yamlPart with
      | none => none
      | some fm => some fm

/-- Lines 13–34 of `part_001`: the local-read `apiHandler`, over the
    worker's filesystem `readFile`. Empty path after the `/api/` prefix:
    404 `"not found"`. Any `os.ReadFile` error: 404 `"file not found"`.
    Otherwise the frontmatter (absent collapsing to the empty map) as
    JSON. -/
def apiHandler (yamlU : Str → Option Fm) (readFile : Str → Except ReadErr Str)
    (urlPath : Str) : ApiResponse :=
  let path := trimPrefix urlPath (str "/api/")
  if path = [] then httpError (str "not found") 404
  else
    match readFile (str "content/" ++ path ++ str ".md") with
    | .error _ => httpError (str "file not found") 404
    | .ok data =>
      let fm := match parseFrontmatter yamlU data with
        | none => []
        | some fm => fm
      { status := 200, contentType := str "application/json", body := jsonEncode fm }

end LocalApi

namespace RemoteApi

/-- What the Cloudflare fetch of one URL can come back with: a failure
    building the request, a failure performing it, or a response with a
    status code and body. -/
inductive FetchOutcome where
  | reqErr (msg : Str)
  | doErr (msg : Str)
  | resp (status : Nat) (body : Str)

/-- Lines 22–47 of `src/functions/api.go`: `fetchWikiPage(ctx, path,
    branch)` builds the raw-content URL from `REPO_URL` and performs the
    fetch (the oracle `net`); request or transport errors propagate, a
    404 status becomes the error `FILE_NOT_FOUND_ERROR_MESSAGE`, any
    other status yields the body. -/
def fetchWikiPage (net : Str → FetchOutcome) (path branch : Str) : Except Str Str :=
  let url := str "https://raw.githubusercontent.com/starillume/wikiplum/refs/heads/"
      ++ branch ++ str "/content/" ++ path
  match net url with
  | .reqErr m => .error m
  | .doErr m => .error m
  | .resp status body =>
    if status = 404 then .error (str "file not found") else .ok body

/-- Lines 85–104 of `src/functions/api.go`: `parseFrontmatter(md)`,
    textually identical to the one in `part_001`. -/
def parseFrontmatter (yamlU : Str → Option Fm) (md : Str) : Option Fm :=
  let content := trimSpace md
  if !hasPrefix content fmDelim then none
  else
    let parts := splitN fmDelim content 3
    if parts.length < 3 then none
    else
      let yamlPart := trimSpace (parts.getD 1 [])
      match yamlU yamlPart with
      | none => none
      | some fm => some fm

/-- Lines 49–82 of `src/functions/api.go`: the remote-fetch `apiHandler`.
    `branchq` is `r.URL.Query().Get("branch")` (empty when absent,
    defaulted to `"main"`). Empty path: 404 `"not found"`. A fetch error
    whose message is `FILE_NOT_FOUND_ERROR_MESSAGE`: 404 with that
    message; any other fetch error: 500 `"internal error"`. Otherwise the
    frontmatter (absent collapsing to the empty map) as JSON. -/
def apiHandler (yamlU : Str → Option Fm) (net : Str → FetchOutcome)
    (urlPath branchq : Str) : ApiResponse :=
  let path := trimPrefix urlPath (str "/api/")
  if path = [] then httpError (str "not found") 404
  else
    let branch := if branchq = [] then str "main" else branchq
    match fetchWikiPage net (path ++ str ".md") branch with
    | .error m =>
      if m = str "file not found" then httpError (str "file not found") 404
      else httpError (str "internal error") 500
    | .ok data =>
      let fm := match parseFrontmatter yamlU data with
        | none => []
        | some fm => fm
      { status := 200, contentType := str "application/json", body := jsonEncode fm }

end RemoteApi

/-! ## Specification-side comparators

These two definitions follow the wording of the specification (sections
4.1 and 4.3), to be compared with the definitions traced from the source
above. -/

/-- The extraction contract as the specification words it: trim the
    content; if it does not begin with the delimiter, absent; split into
    at most three segments on the delimiter; fewer than three, absent;
    otherwise parse the trimmed middle segment, a parse failure being
    absent, never an error. -/
def frontmatterSpec (yamlU : Str → Option Fm) (md : Str) : Option Fm :=
  let content := trimSpace md
  if hasPrefix content fmDelim = false then none
  else if (splitN fmDelim content 3).length < 3 then none
  else yamlU (trimSpace ((splitN fmDelim content 3).getD 1 []))

/-- The sidebar entry as the specification words it: with `relRoot` the
    current page's directory relative to the content root and `rel` the
    candidate relative to the content root, the link is `rel` when
    `relRoot` is the current directory and `relRoot` joined with `rel`
    otherwise, with the `.md` suffix stripped and `.html` appended; the
    title is the final path segment of the stripped link. -/
def navItemSpec (root cur p : Path) : NavItem :=
  let relRoot := relPath (dirPath cur) root
  let rel := relPath root p
  let link := if relRoot = [] then rel else relRoot ++ rel
  let stripped := mapLastSeg (fun s => trimSuffix s (str ".md")) link
  { Title := baseSeg stripped, Link := mapLastSeg (fun s => s ++ str ".html") stripped }

/-! ## Library lemmas -/
theorem hasPrefix_iff {α : Type} [DecidableEq α] (p : List α) :
    ∀ s : List α, hasPrefix s p = true ↔ ∃ t, s = p ++ t := by
  induction p with
  | nil =>
    intro s
    constructor
    · intro _; exact ⟨s, rfl⟩
    · intro _; cases s <;> rfl
  | cons a as ih =>
    intro s
    cases s with
    | nil =>
      constructor
      · intro h; exact absurd h (by simp [hasPrefix])
      · rintro ⟨t, ht⟩; exact absurd ht (by simp)
    | cons c t =>
      constructor
      · intro h
        simp only [hasPrefix] at h
        split at h
        · next hc =>
          obtain ⟨u, hu⟩ := (ih t).mp h
          exact ⟨u, by subst hc; subst hu; rfl⟩
        · exact absurd h (by simp)
      · rintro ⟨u, hu⟩
        injection hu with h1 h2
        subst h1
        simp only [hasPrefix, if_pos]
        exact (ih t).mpr ⟨u, h2⟩

theorem hasPrefix_append {α : Type} [DecidableEq α] (p t : List α) :
    hasPrefix (p ++ t) p = true :=
  (hasPrefix_iff p _).mpr ⟨t, rfl⟩

theorem hasPrefix_single {X : Str} {d : Char} :
    hasPrefix X [d] = true ↔ X.head? = some d := by
  cases X with
  | nil => simp [hasPrefix]
  | cons c t =>
    show (if c = d then hasPrefix t ([] : Str) else false) = true ↔ some c = some d
    by_cases hc : c = d
    · rw [if_pos hc]; simp [hc, hasPrefix]
    · rw [if_neg hc]; simp [hc]

theorem replaceMdHtml_cons (c : Char) (t : Str)
    (h : ∀ t₁, c = '.' → t = 'm' :: 'd' :: t₁ → False) :
    replaceMdHtml (c :: t) = c :: replaceMdHtml t := by
  rw [replaceMdHtml.eq_def]
  split
  · rename_i t₁ heq
    injection heq with h1 h2
    exact (h t₁ h1 h2).elim
  · rename_i heq
    injection heq with e1 e2
    rw [e1, e2]
  · rename_i heq
    exact absurd heq (by simp)

theorem head?_replaceMdHtml (s : Str) :
    (replaceMdHtml s).head? = s.head? := by
  induction s using replaceMdHtml.induct with
  | case1 t ih => rfl
  | case2 c t h ih => rw [replaceMdHtml_cons c t h]; rfl
  | case3 => rfl

theorem hasPrefix_md_tail (t : Str)
    (h : hasPrefix (replaceMdHtml t) (str "md") = true) :
    hasPrefix t (str "md") = true := by
  induction t using replaceMdHtml.induct with
  | case1 t' ih =>
    rw [show hasPrefix (replaceMdHtml ('.' :: 'm' :: 'd' :: t')) (str "md") = false from rfl] at h
    simp at h
  | case2 c t' h2 ih =>
    rw [replaceMdHtml_cons c t' h2] at h
    by_cases hc : c = 'm'
    · subst hc
      have hd : hasPrefix (replaceMdHtml t') [('d' : Char)] = true := by
        rw [show hasPrefix ('m' :: replaceMdHtml t') (str "md")
            = hasPrefix (replaceMdHtml t') ['d'] from by rw [show (str "md") = 'm' :: ['d'] from rfl]; simp [hasPrefix]] at h
        exact h
      have : t'.head? = some 'd' := by
        rw [← head?_replaceMdHtml]; exact hasPrefix_single.mp hd
      show hasPrefix ('m' :: t') (str "md") = true
      rw [show (str "md") = 'm' :: ['d'] from rfl]
      simp only [hasPrefix, if_pos]
      exact hasPrefix_single.mpr this
    · rw [show (str "md") = 'm' :: ['d'] from rfl] at h
      simp only [hasPrefix] at h
      rw [if_neg hc] at h
      exact absurd h (by simp)
  | case3 =>
    exact absurd h (by decide)

theorem contains_replaceMdHtml (s : Str) :
    contains (replaceMdHtml s) (str ".md") = false := by
  induction s using replaceMdHtml.induct with
  | case1 t ih =>
    exact (rfl : contains (replaceMdHtml ('.' :: 'm' :: 'd' :: t)) (str ".md")
      = contains (replaceMdHtml t) (str ".md")).trans ih
  | case2 c t h2 ih =>
    rw [replaceMdHtml_cons c t h2]
    show (hasPrefix (c :: replaceMdHtml t) (str ".md") || contains (replaceMdHtml t) (str ".md")) = false
    rw [ih, Bool.or_false]
    by_cases hc : c = '.'
    · subst hc
      show (if ('.' : Char) = '.' then hasPrefix (replaceMdHtml t) (str "md") else false) = false
      rw [if_pos rfl]
      cases hx : hasPrefix (replaceMdHtml t) (str "md") with
      | false => rfl
      | true =>
        obtain ⟨u, hu⟩ := (hasPrefix_iff _ _).mp (hasPrefix_md_tail t hx)
        exact (h2 u rfl hu).elim
    · show (if c = '.' then hasPrefix (replaceMdHtml t) (str "md") else false) = false
      rw [if_neg hc]
  | case3 => rfl

theorem replaceMdHtml_of_not_contains (s : Str)
    (h : contains s (str ".md") = false) : replaceMdHtml s = s := by
  induction s using replaceMdHtml.induct with
  | case1 t ih =>
    rw [show contains ('.' :: 'm' :: 'd' :: t) (str ".md") = true from rfl] at h
    simp at h
  | case2 c t h2 ih =>
    have hct : contains t (str ".md") = false := by
      have he : contains (c :: t) (str ".md")
          = (hasPrefix (c :: t) (str ".md") || contains t (str ".md")) := rfl
      rw [he] at h
      exact (Bool.or_eq_false_iff.mp h).2
    rw [replaceMdHtml_cons c t h2, ih hct]
  | case3 => rfl

theorem replaceMdHtml_append (a b : Str)
    (h : contains a (str ".md") = false) :
    replaceMdHtml (a ++ str ".md" ++ b) = a ++ str ".html" ++ replaceMdHtml b := by
  induction a with
  | nil => rfl
  | cons c a' ih =>
    have he : contains (c :: a') (str ".md")
        = (hasPrefix (c :: a') (str ".md") || contains a' (str ".md")) := rfl
    rw [he] at h
    obtain ⟨hp, h'⟩ := Bool.or_eq_false_iff.mp h
    have hside : ∀ t₁, c = '.' → (a' ++ str ".md" ++ b) = 'm' :: 'd' :: t₁ → False := by
      intro t₁ hc ht
      cases a' with
      | nil =>
        injection ht with e1 e2
        exact absurd e1 (by decide)
      | cons x a'' =>
        injection ht with e1 e2
        cases a'' with
        | nil =>
          injection e2 with e3 e4
          exact absurd e3 (by decide)
        | cons y a''' =>
          injection e2 with e3 e4
          subst hc e1 e3
          rw [show hasPrefix ('.' :: 'm' :: 'd' :: a''') (str ".md") = true from rfl] at hp
          simp at hp
    rw [show ((c :: a') ++ str ".md" ++ b) = c :: (a' ++ str ".md" ++ b) from rfl]
    rw [replaceMdHtml_cons _ _ hside, ih h']
    rfl

theorem relPath_append (r t : Path) : relPath r (r ++ t) = t := by
  induction r with
  | nil => simp [relPath]
  | cons b bs ih => simp [relPath, ih]

theorem trimSuffix_append_of_hasSuffix {s suf : Str} (h : hasSuffix s suf = true) :
    trimSuffix s suf ++ suf = s := by
  obtain ⟨t, ht⟩ := (hasPrefix_iff suf.reverse s.reverse).mp h
  have hs : s = t.reverse ++ suf := by
    have h2 := congrArg List.reverse ht
    simpa using h2
  rw [trimSuffix, if_pos h, ht,
    show suf.length = suf.reverse.length from (List.length_reverse suf).symm,
    List.drop_left]
  exact hs.symm

theorem mapLastSeg_eq (f : Seg → Seg) {l : Path} {s : Seg} (hl : l.getLast? = some s) :
    mapLastSeg f l = l.dropLast ++ [f s] := by
  induction l generalizing s with
  | nil => simp at hl
  | cons a rest ih =>
    cases rest with
    | nil =>
      simp only [List.getLast?_singleton, Option.some.injEq] at hl
      subst hl
      simp [mapLastSeg]
    | cons b r2 =>
      rw [List.getLast?_cons_cons] at hl
      rw [show mapLastSeg f (a :: b :: r2) = a :: mapLastSeg f (b :: r2) from rfl, ih hl]
      simp

theorem isMdFile_last {p : Path} (h : isMdFile p = true) :
    ∃ s, p.getLast? = some s ∧ hasSuffix s (str ".md") = true := by
  rw [isMdFile] at h
  cases hl : p.getLast? with
  | none => rw [hl] at h; exact absurd h (by simp)
  | some s => rw [hl] at h; exact ⟨s, rfl, h⟩

theorem dropLast_append_of_getLast? {l : Path} {s : Seg} (hl : l.getLast? = some s) :
    l.dropLast ++ [s] = l := by
  have hne : l ≠ [] := by rintro rfl; simp at hl
  rw [List.getLast?_eq_getLast l hne] at hl
  injection hl with hs
  rw [← hs]
  exact List.dropLast_append_getLast hne

theorem trimHtml_inj {x y : Seg}
    (hx : hasSuffix x (str ".md") = true) (hy : hasSuffix y (str ".md") = true)
    (h : trimSuffix x (str ".md") ++ str ".html" = trimSuffix y (str ".md") ++ str ".html") :
    x = y := by
  have h2 := List.append_cancel_right h
  rw [← trimSuffix_append_of_hasSuffix hx, ← trimSuffix_append_of_hasSuffix hy, h2]

theorem outputPath_inj {p q : Path}
    (hp : hasPrefix p ContentPath = true) (hq : hasPrefix q ContentPath = true)
    (hmp : isMdFile p = true) (hmq : isMdFile q = true)
    (h : outputPath p = outputPath q) : p = q := by
  obtain ⟨p', rfl⟩ := (hasPrefix_iff ContentPath p).mp hp
  obtain ⟨q', rfl⟩ := (hasPrefix_iff ContentPath q).mp hq
  obtain ⟨sp, hsp, hsufp⟩ := isMdFile_last hmp
  obtain ⟨sq, hsq, hsufq⟩ := isMdFile_last hmq
  cases p' with
  | nil =>
    rw [show (ContentPath ++ ([] : Path)).getLast? = some (str "content") from rfl] at hsp
    injection hsp with hsp2
    rw [← hsp2] at hsufp
    exact absurd hsufp (by decide)
  | cons x xs =>
  cases q' with
  | nil =>
    rw [show (ContentPath ++ ([] : Path)).getLast? = some (str "content") from rfl] at hsq
    injection hsq with hsq2
    rw [← hsq2] at hsufq
    exact absurd hsufq (by decide)
  | cons y ys =>
    have hpl : (x :: xs : Path).getLast? = some sp := by
      rw [show (ContentPath ++ (x :: xs) : Path) = str "content" :: x :: xs from rfl,
        List.getLast?_cons_cons] at hsp
      exact hsp
    have hql : (y :: ys : Path).getLast? = some sq := by
      rw [show (ContentPath ++ (y :: ys) : Path) = str "content" :: y :: ys from rfl,
        List.getLast?_cons_cons] at hsq
      exact hsq
    rw [outputPath, outputPath, relPath_append, relPath_append] at h
    have h2 := List.append_cancel_left h
    rw [mapLastSeg_eq _ hpl, mapLastSeg_eq _ hql] at h2
    obtain ⟨hinit, hlast⟩ := List.append_inj' h2 (by simp)
    have hlast2 : trimSuffix sp (str ".md") ++ str ".html"
        = trimSuffix sq (str ".md") ++ str ".html" := by
      injection hlast with h1 _
    have hs := trimHtml_inj hsufp hsufq hlast2
    have e1 := dropLast_append_of_getLast? hpl
    have e2 := dropLast_append_of_getLast? hql
    rw [← e1, ← e2, hinit, hs]

theorem filterMap_guard {α β : Type} (p : α → Bool) (h : α → β) (l : List α) :
    (l.filterMap fun a => if p a then none else some (h a))
      = (l.filter fun a => !p a).map h := by
  induction l with
  | nil => rfl
  | cons a t ih => by_cases hp : p a <;> simp [hp, ih]

theorem count_one_of_nodup_mem {α : Type} [BEq α] [LawfulBEq α] {l : List α} {a : α}
    (hn : l.Nodup) (ha : a ∈ l) : l.count a = 1 := by
  induction l with
  | nil => simp at ha
  | cons b t ih =>
    rcases List.mem_cons.mp ha with rfl | hat
    · have hz : t.count a = 0 := by
        apply List.count_eq_zero.mpr
        intro hc
        exact (List.nodup_cons.mp hn).1 hc
      simp [List.count_cons, hz]
    · have hne : ¬(a == b) = true := by
        intro hab
        have hab2 : a = b := eq_of_beq hab
        subst hab2
        exact (List.nodup_cons.mp hn).1 hat
      have ht := ih (List.nodup_cons.mp hn).2 hat
      have hne2 : ¬b = a := by
        intro hba
        rw [hba] at hne
        exact hne (by simp)
      simp [List.count_cons, ht, hne, hne2]

theorem sidebarGo_eq (root cur : Path) (entries : List Entry) (acc : List NavItem) :
    sidebarGo root cur entries acc
      = acc ++ (entries.filter fun e => !sidebarSkip e).map fun e => sidebarItem root cur e.path := by
  induction entries generalizing acc with
  | nil => simp [sidebarGo]
  | cons e rest ih =>
    by_cases h : sidebarSkip e
    · simp [sidebarGo, h, ih]
    · simp [sidebarGo, h, ih]

/-! ## The claims -/

/-- Claim C1: over any duplicate-free walk of the content tree (pairwise
distinct paths, all under the content root, as `filepath.WalkDir`
produces), the build writes exactly one output HTML file for every
markdown file, at the path obtained by taking the file's path relative to
the content root, stripping the `.md` suffix, appending `.html`, and
prefixing the build output root (`outputPath`); no markdown file maps to
zero or to two output paths. -/

theorem buildPages_unique_output (entries : List Entry)
    (hnd : (entries.map Entry.path).Nodup)
    (hroot : ∀ e ∈ entries, hasPrefix e.path ContentPath = true)
    (e : Entry) (he : e ∈ entries) (hdir : e.isDir = false) (hmd : isMdFile e.path = true) :
    (buildOutputPaths entries).count (outputPath e.path) = 1 := by
  rw [show buildOutputPaths entries
      = ((entries.filter fun x => !(x.isDir || !isMdFile x.path)).map fun x => outputPath x.path)
    from filterMap_guard _ _ entries]
  apply count_one_of_nodup_mem
  · apply List.Nodup.map_on
    · intro a ha b hb hab
      have hfa := List.of_mem_filter ha
      have hfb := List.of_mem_filter hb
      have hma : isMdFile a.path = true := by
        cases hx : isMdFile a.path
        · rw [hx] at hfa; simp at hfa
        · rfl
      have hmb : isMdFile b.path = true := by
        cases hx : isMdFile b.path
        · rw [hx] at hfb; simp at hfb
        · rfl
      have hpath : a.path = b.path :=
        outputPath_inj (hroot a (List.mem_of_mem_filter ha))
          (hroot b (List.mem_of_mem_filter hb)) hma hmb hab
      exact List.inj_on_of_nodup_map hnd (List.mem_of_mem_filter ha)
        (List.mem_of_mem_filter hb) hpath
    · exact (List.Nodup.of_map _ hnd).filter _
  · apply List.mem_map.mpr
    refine ⟨e, List.mem_filter.mpr ⟨he, ?_⟩, rfl⟩
    simp [hdir, hmd]

/-- Witness for C1: a four-entry walk with two markdown files; the file
`content/a.md` produces exactly one output, `build/a.html`. -/

theorem buildPages_unique_output_witness :
    (buildOutputPaths
        [⟨[str "content"], true⟩, ⟨[str "content", str "a.md"], false⟩,
         ⟨[str "content", str "sub"], true⟩, ⟨[str "content", str "sub", str "b.md"], false⟩]).count
      (outputPath [str "content", str "a.md"]) = 1 :=
  buildPages_unique_output _ (by decide) (by decide)
    ⟨[str "content", str "a.md"], false⟩ (by decide) rfl (by decide)

/-- Claim C2: the sidebar consists of exactly one entry per retained
candidate file, and each entry is the specification's `navItemSpec`: with
`relRoot` the current page's directory relative to the content root and
`rel` the candidate's path relative to the content root, the link is
`rel` when `relRoot` is the current directory and `relRoot` joined with
`rel` otherwise, in both cases with the `.md` suffix stripped and
`.html` appended; the title is the final path segment of the stripped
link. -/

theorem generateSidebar_entries (root cur : Path) (entries : List Entry) :
    generateSidebar root cur entries
      = (entries.filter fun e => !sidebarSkip e).map fun e => navItemSpec root cur e.path := by
  rw [generateSidebar, sidebarGo_eq]
  simp only [List.nil_append]
  rfl

/-- Claim C3: files whose path contains the root page's name `"index"`
as a substring are invisible to sidebar generation — removing them all
from the walk leaves every sidebar unchanged, at any directory depth —
and the root/index page's own path `content/index.md` is such a path, so
it never appears in any sidebar. -/

theorem generateSidebar_excludes_root_page (root cur : Path) (entries : List Entry) :
    generateSidebar root cur (entries.filter fun e => !containsRootPage e.path)
        = generateSidebar root cur entries
      ∧ containsRootPage [str "content", str "index.md"] = true := by
  constructor
  · rw [generateSidebar, generateSidebar, sidebarGo_eq, sidebarGo_eq]
    simp only [List.nil_append]
    congr 1
    rw [List.filter_filter]
    apply List.filter_congr
    intro x hx
    cases h : containsRootPage x.path
    · simp [sidebarSkip, h]
    · simp [sidebarSkip, h]
  · decide

/-- Claim C4: frontmatter extraction never signals an error: it equals
the specification-side case analysis `frontmatterSpec`, which returns the
absent result when the trimmed content does not begin with `"---"`, when
splitting on the delimiter yields fewer than three segments, or when the
trimmed middle segment fails to parse, and the parsed mapping in all
other cases. -/

theorem parseFrontmatter_spec_eq (yamlU : Str → Option Fm) (md : Str) :
    LocalApi.parseFrontmatter yamlU md = frontmatterSpec yamlU md := by
  simp only [LocalApi.parseFrontmatter, frontmatterSpec]
  cases h : hasPrefix (trimSpace md) fmDelim <;> simp [h]
  split
  · rfl
  · cases hy : yamlU (trimSpace ((splitN fmDelim (trimSpace md) 3)[1]?.getD [])) <;> simp [hy]

/-- Counterexample to C5 as stated: in the local-read variant, a read
failure that is not not-found (`ReadErr.other`, e.g. a permission error)
is answered with 404 `"file not found"`, not with 500 `"internal
error"` — the local handler has no 500 branch at all. -/

theorem apiHandler_other_error_not_500 :
    LocalApi.apiHandler (fun _ => none) (fun _ => .error .other) (str "/api/page")
        = httpError (str "file not found") 404
      ∧ (LocalApi.apiHandler (fun _ => none) (fun _ => .error .other) (str "/api/page")).status ≠ 500 := by
  decide

/-- Claim C5 as amended: for a non-empty path, the local-read variant
responds 404 `"file not found"` on every read failure, whatever its
cause; the remote-fetch variant responds 404 `"file not found"` exactly
when the fetch error message is `"file not found"` (which is how
`fetchWikiPage` reports a 404 status) and 500 `"internal error"` on
every other fetch error. -/

theorem apiHandler_error_responses (yamlU : Str → Option Fm) (urlPath : Str)
    (readFile : Str → Except LocalApi.ReadErr Str) (e : LocalApi.ReadErr)
    (net : Str → RemoteApi.FetchOutcome) (branchq m : Str)
    (hp : trimPrefix urlPath (str "/api/") ≠ [])
    (hrf : readFile (str "content/" ++ trimPrefix urlPath (str "/api/") ++ str ".md")
        = .error e)
    (hnet : RemoteApi.fetchWikiPage net (trimPrefix urlPath (str "/api/") ++ str ".md")
        (if branchq = [] then str "main" else branchq) = .error m) :
    LocalApi.apiHandler yamlU readFile urlPath = httpError (str "file not found") 404
      ∧ (m = str "file not found" →
          RemoteApi.apiHandler yamlU net urlPath branchq = httpError (str "file not found") 404)
      ∧ (m ≠ str "file not found" →
          RemoteApi.apiHandler yamlU net urlPath branchq = httpError (str "internal error") 500) := by
  refine ⟨?_, ?_, ?_⟩
  · simp only [LocalApi.apiHandler]
    rw [if_neg hp, hrf]
  · intro hm
    simp only [RemoteApi.apiHandler]
    rw [if_neg hp, hnet]
    simp [hm]
  · intro hm
    simp only [RemoteApi.apiHandler]
    rw [if_neg hp, hnet]
    simp [hm]

/-- Witness for the amended C5: a concrete failing read gets 404 from
the local variant, and a concrete transport error gets 500 from the
remote variant. -/

theorem apiHandler_error_responses_witness :
    LocalApi.apiHandler (fun _ => none) (fun _ => .error .other) (str "/api/p")
        = httpError (str "file not found") 404
      ∧ RemoteApi.apiHandler (fun _ => none) (fun _ => .reqErr (str "boom")) (str "/api/p") []
        = httpError (str "internal error") 500 := by
  have h := apiHandler_error_responses (fun _ => none) (str "/api/p")
    (fun _ => .error .other) .other (fun _ => .reqErr (str "boom")) [] (str "boom")
    (by decide) rfl rfl
  exact ⟨h.1, h.2.2 (by decide)⟩

/-- Claim C6: the pre-conversion rewrite replaces every literal
occurrence of `".md"` with `".html"` anywhere in the content — link
target or not — and leaves all other bytes unchanged: a prefix free of
`".md"` is copied verbatim, the occurrence after it is rewritten, the
remainder is processed the same way, and content without `".md"` is
returned untouched. -/

theorem mdLinkToHTML_rewrites_every_occurrence (a b : Str)
    (h : contains a (str ".md") = false) :
    mdLinkToHTML (a ++ str ".md" ++ b) = a ++ str ".html" ++ mdLinkToHTML b
      ∧ mdLinkToHTML a = a :=
  ⟨replaceMdHtml_append a b h, replaceMdHtml_of_not_contains a h⟩

/-- Witness for C6 at the specification's own example: the prose
`"see my.md file"` becomes `"see my.html file"`. -/

theorem mdLinkToHTML_witness :
    contains (str "see my") (str ".md") = false
      ∧ mdLinkToHTML (str "see my" ++ str ".md" ++ str " file")
        = str "see my" ++ str ".html" ++ mdLinkToHTML (str " file") :=
  ⟨by decide, (mdLinkToHTML_rewrites_every_occurrence (str "see my") (str " file") (by decide)).1⟩

/-- Claim C7: on the input `"---\ntitle: Hello\n---\nBody"`,
frontmatter extraction returns exactly the one-entry mapping from
`"title"` to `"Hello"`. -/

theorem parseFrontmatter_title_hello :
    LocalApi.parseFrontmatter yamlFlatParse (str "---\ntitle: Hello\n---\nBody")
      = some [(str "title", str "Hello")] := by decide

/-- Claim C8: when the resource of a non-empty path is successfully
read (local variant) or fetched (remote variant) and frontmatter
extraction yields no frontmatter, both handlers respond 200 with JSON
content type and the empty JSON object, rather than an error. -/

theorem apiHandler_empty_frontmatter (yamlU : Str → Option Fm) (urlPath : Str)
    (readFile : Str → Except LocalApi.ReadErr Str) (data : Str)
    (net : Str → RemoteApi.FetchOutcome) (branchq data2 : Str)
    (hp : trimPrefix urlPath (str "/api/") ≠ [])
    (hrf : readFile (str "content/" ++ trimPrefix urlPath (str "/api/") ++ str ".md")
        = .ok data)
    (hfmL : LocalApi.parseFrontmatter yamlU data = none)
    (hnet : RemoteApi.fetchWikiPage net (trimPrefix urlPath (str "/api/") ++ str ".md")
        (if branchq = [] then str "main" else branchq) = .ok data2)
    (hfmR : RemoteApi.parseFrontmatter yamlU data2 = none) :
    LocalApi.apiHandler yamlU readFile urlPath
        = ⟨200, str "application/json", str "\x7b\x7d"⟩
      ∧ RemoteApi.apiHandler yamlU net urlPath branchq
        = ⟨200, str "application/json", str "\x7b\x7d"⟩ := by
  constructor
  · simp only [LocalApi.apiHandler]
    rw [if_neg hp, hrf]
    simp [hfmL]
    rfl
  · simp only [RemoteApi.apiHandler]
    rw [if_neg hp, hnet]
    simp [hfmR]
    rfl

/-- Witness for C8: a concrete empty file read locally and fetched
remotely, both answered with `\x7b\x7d`. -/

theorem apiHandler_empty_frontmatter_witness :
    LocalApi.apiHandler (fun _ => none) (fun _ => .ok []) (str "/api/p")
        = ⟨200, str "application/json", str "\x7b\x7d"⟩
      ∧ RemoteApi.apiHandler (fun _ => none) (fun _ => .resp 200 []) (str "/api/p") []
        = ⟨200, str "application/json", str "\x7b\x7d"⟩ :=
  apiHandler_empty_frontmatter (fun _ => none) (str "/api/p") (fun _ => .ok []) []
    (fun _ => .resp 200 []) [] [] (by decide) rfl rfl rfl rfl

/-- Claim C9: the frontmatter extraction function of the local-read
variant and that of the remote-fetch variant compute the same result on
every input. -/

theorem parseFrontmatter_variants_agree (yamlU : Str → Option Fm) (md : Str) :
    LocalApi.parseFrontmatter yamlU md = RemoteApi.parseFrontmatter yamlU md := rfl

/-- Claim C10: the `.md`-to-`.html` rewrite is idempotent — applying it
twice is applying it once — and equivalently its output never contains
the substring `".md"`. -/

theorem mdLinkToHTML_idempotent (s : Str) :
    mdLinkToHTML (mdLinkToHTML s) = mdLinkToHTML s
      ∧ contains (mdLinkToHTML s) (str ".md") = false :=
  ⟨replaceMdHtml_of_not_contains _ (contains_replaceMdHtml s), contains_replaceMdHtml s⟩

end Wikiplum
